import Mathlib

/-!
Verification of the remapping core of the brailleCellIgnorer add-on.

The definitions below are shallow embeddings of the Python source:
- `remapCellsToPhysical` embeds `CellMappingManager._remapCellsToPhysical`
  (cellMapping.py, lines 150-176),
- `physicalToLogicalIndex` embeds `CellMappingManager._physicalToLogicalIndex`
  (cellMapping.py, lines 229-239),
- `filterDisplayDimensions` embeds `CellMappingManager._filterDisplayDimensions`
  (cellMapping.py, lines 67-88),
- `getRoutingIndex` and `patchedRouteTo` embed the patched routing hooks
  (cellMapping.py, lines 183-188 and 214-219),
- `registerHandlers` / `unregisterHandlers` embed the coordinator state machine
  (cellMapping.py, lines 28-48) over an explicit host-state record,
- `IgnoredCellsProfile.getIgnoredCellsZeroBased` embeds the boundary conversion
  in config.py, lines 39-41.

Python `int` is embedded as `Int`, `set[int]` as `Finset Int`, and `list[int]`
as `List Int`.
-/

set_option autoImplicit false

namespace BrailleCellIgnorer

/-- Embeds the loop body of `_remapCellsToPhysical`: `n` physical slots remain,
`p` is the current physical index, `li` is the current value of `logicalIndex`.
At an ignored position the code appends `0`; otherwise it appends
`logicalCells[logicalIndex]` when `logicalIndex < len(logicalCells)` and `0`
otherwise (which is exactly `List.getD`), and increments `logicalIndex`. -/
def remapAux (logicalCells : List Int) (ignoredCells : Finset Int) :
    Nat → Nat → Nat → List Int
  | 0, _, _ => []
  | n + 1, p, li =>
    if (p : Int) ∈ ignoredCells then
      0 :: remapAux logicalCells ignoredCells n (p + 1) li
    else
      logicalCells.getD li 0 :: remapAux logicalCells ignoredCells n (p + 1) (li + 1)

/-- Embeds `CellMappingManager._remapCellsToPhysical`: walk physical indices
`0 .. physicalCellCount - 1` starting with `logicalIndex = 0`. -/
def remapCellsToPhysical (logicalCells : List Int) (physicalCellCount : Nat)
    (ignoredCells : Finset Int) : List Int :=
  remapAux logicalCells ignoredCells physicalCellCount 0 0

/-- Number of non-ignored physical positions among `p, p+1, ..., p+n-1`;
this is the value `logicalIndex` holds when the loop of
`_remapCellsToPhysical` started at physical index `p` reaches index `p+n`. -/
def nonIgnoredCount (ignoredCells : Finset Int) : Nat → Nat → Nat
  | _, 0 => 0
  | p, n + 1 =>
    (if (p : Int) ∈ ignoredCells then 0 else 1) + nonIgnoredCount ignoredCells (p + 1) n

/-- Embeds `CellMappingManager._physicalToLogicalIndex`: `None` for an ignored
position, otherwise the physical index minus the number of ignored cells
strictly below it (`sum(1 for cell in ignoredCells if cell < physicalIndex)`). -/
def physicalToLogicalIndex (ignoredCells : Finset Int) (physicalIndex : Int) :
    Option Int :=
  if physicalIndex ∈ ignoredCells then
    none
  else
    some (physicalIndex - (ignoredCells.filter (fun cell => cell < physicalIndex)).card)

theorem remapAux_length (L : List Int) (I : Finset Int) :
    ∀ (n p li : Nat), (remapAux L I n p li).length = n := by
  intro n
  induction n with
  | zero => intro p li; simp [remapAux]
  | succ n ih =>
      intro p li
      by_cases h : (p : Int) ∈ I <;> simp [remapAux, h, ih]

theorem nonIgnoredCount_add (I : Finset Int) :
    ∀ (m n p : Nat),
      nonIgnoredCount I p (m + n) = nonIgnoredCount I p m + nonIgnoredCount I (p + m) n := by
  intro m
  induction m with
  | zero => intro n p; simp [nonIgnoredCount]
  | succ m ih =>
      intro n p
      have : m + 1 + n = (m + n) + 1 := by omega
      rw [this]
      simp only [nonIgnoredCount, ih n (p + 1)]
      have : p + (m + 1) = p + 1 + m := by omega
      rw [this]
      omega

/-- Element characterisation of the remap loop: slot `j` of
`remapAux L I n p li` (physical index `p + j`) is `0` when `p + j` is ignored,
and otherwise the logical cell at index `li` plus the number of non-ignored
positions among `p .. p+j-1`, with `0` as out-of-range default. -/
theorem remapAux_getD (L : List Int) (I : Finset Int) :
    ∀ (n p li j : Nat), j < n →
      (remapAux L I n p li).getD j 0 =
        if ((p + j : Nat) : Int) ∈ I then 0
        else L.getD (li + nonIgnoredCount I p j) 0 := by
  intro n
  induction n with
  | zero => intro p li j hj; omega
  | succ n ih =>
      intro p li j hj
      cases j with
      | zero =>
          by_cases h : (p : Int) ∈ I <;>
            simp [remapAux, nonIgnoredCount, h]
      | succ j =>
          have hjn : j < n := by omega
          by_cases h : (p : Int) ∈ I
          · have := ih (p + 1) li j hjn
            simp only [remapAux, if_pos h, List.getD_cons_succ, this]
            have hidx : p + 1 + j = p + (j + 1) := by omega
            rw [hidx]
            simp [nonIgnoredCount, h]
          · have := ih (p + 1) (li + 1) j hjn
            simp only [remapAux, if_neg h, List.getD_cons_succ, this]
            have hidx : p + 1 + j = p + (j + 1) := by omega
            rw [hidx]
            simp only [nonIgnoredCount, if_neg h]
            have harith : li + 1 + nonIgnoredCount I (p + 1) j =
                li + (1 + nonIgnoredCount I (p + 1) j) := by omega
            rw [harith]

theorem filter_lt_succ_card (I : Finset Int) (n : Nat) :
    (I.filter (fun c => c < ((n : Int) + 1))).card =
      (I.filter (fun c => c < (n : Int))).card + (if (n : Int) ∈ I then 1 else 0) := by
  have hset : I.filter (fun c => c < ((n : Int) + 1)) =
      I.filter (fun c => c < (n : Int)) ∪ I.filter (fun c => c = (n : Int)) := by
    ext x
    simp only [Finset.mem_filter, Finset.mem_union]
    constructor
    · rintro ⟨hx, hlt⟩
      rcases lt_or_eq_of_le (Int.lt_add_one_iff.mp hlt) with h | h
      · exact Or.inl ⟨hx, h⟩
      · exact Or.inr ⟨hx, h⟩
    · rintro (⟨hx, h⟩ | ⟨hx, h⟩) <;> exact ⟨hx, by omega⟩
  have hdisj : Disjoint (I.filter (fun c => c < (n : Int)))
      (I.filter (fun c => c = (n : Int))) := by
    rw [Finset.disjoint_left]
    intro x hx hx'
    rw [Finset.mem_filter] at hx hx'
    omega
  rw [hset, Finset.card_union_of_disjoint hdisj]
  congr 1
  by_cases h : (n : Int) ∈ I
  · rw [if_pos h]
    have : I.filter (fun c => c = (n : Int)) = {(n : Int)} := by
      ext x
      simp only [Finset.mem_filter, Finset.mem_singleton]
      exact ⟨fun hx => hx.2, fun hx => ⟨hx ▸ h, hx⟩⟩
    rw [this, Finset.card_singleton]
  · rw [if_neg h]
    have : I.filter (fun c => c = (n : Int)) = ∅ := by
      apply Finset.filter_eq_empty_iff.mpr
      intro x hx hx'
      exact h (hx' ▸ hx)
    rw [this, Finset.card_empty]

/-- Counting identity relating the loop counter of the forward remapper with
the ignored-cell count used by the reverse translator: over nonnegative
ignored sets, the non-ignored positions below `n` plus the ignored positions
below `n` make up all of `0 .. n-1`. -/
theorem nonIgnoredCount_add_filter_card (I : Finset Int) (hI : ∀ x ∈ I, 0 ≤ x) :
    ∀ n : Nat, nonIgnoredCount I 0 n + (I.filter (fun c => c < (n : Int))).card = n := by
  intro n
  induction n with
  | zero =>
      have hempty : I.filter (fun c => c < ((0 : Nat) : Int)) = ∅ := by
        apply Finset.filter_eq_empty_iff.mpr
        intro x hx
        exact not_lt.mpr (hI x hx)
      rw [hempty]
      simp [nonIgnoredCount]
  | succ n ih =>
      have hsucc : nonIgnoredCount I 0 (n + 1) =
          nonIgnoredCount I 0 n + (if (n : Int) ∈ I then 0 else 1) := by
        have h := nonIgnoredCount_add I n 1 0
        simp only [Nat.zero_add] at h
        rw [h]
        simp [nonIgnoredCount]
      have hcast : ((n + 1 : Nat) : Int) = (n : Int) + 1 := by push_cast; ring
      have hfil : I.filter (fun c => c < ((n + 1 : Nat) : Int)) =
          I.filter (fun c => c < ((n : Int) + 1)) := by
        apply Finset.filter_congr
        intro x _
        rw [hcast]
      rw [hsucc, hfil, filter_lt_succ_card]
      by_cases h : (n : Int) ∈ I <;> simp only [h, if_true, if_false] <;> omega

/-- C1: `_remapCellsToPhysical(L, P, I)` has length exactly `P`; its element at
each physical index `i < P` is the blank filler `0` when `i ∈ I`, and otherwise
is `L[k]` where `k` is the number of non-ignored positions before `i`, with
blank filler `0` when `k ≥ len(L)` (`List.getD` is exactly this padding);
logical cells beyond the non-ignored capacity never appear since every emitted
index `k` counts non-ignored positions below `P`. -/
theorem claim_C1_forward_remap_pointwise (L : List Int) (P : Nat) (I : Finset Int) :
    (remapCellsToPhysical L P I).length = P ∧
    ∀ i : Nat, i < P →
      (remapCellsToPhysical L P I).getD i 0 =
        if (i : Int) ∈ I then 0 else L.getD (nonIgnoredCount I 0 i) 0 := by
  constructor
  · exact remapAux_length L I P 0 0
  · intro i hi
    have h := remapAux_getD L I P 0 0 i hi
    simpa using h

theorem claim_C1_forward_remap_pointwise_witness :
    (remapCellsToPhysical [10, 20] 4 ({1} : Finset Int)).length = 4 ∧
    (remapCellsToPhysical [10, 20] 4 ({1} : Finset Int)).getD 2 0 =
      if ((2 : Nat) : Int) ∈ ({1} : Finset Int) then 0
      else [10, 20].getD (nonIgnoredCount {1} 0 2) 0 :=
  ⟨(claim_C1_forward_remap_pointwise [10, 20] 4 {1}).1,
    (claim_C1_forward_remap_pointwise [10, 20] 4 {1}).2 2 (by decide)⟩

/-- C2: `_physicalToLogicalIndex(p)` is `None` when `p` is ignored and
otherwise `p` minus the number of ignored cells strictly below `p`; with
`I = {2, 5}` this sends 0 to 0, 2 to no mapping, 3 to 2, 5 to no mapping and
6 to 4. -/
theorem claim_C2_reverse_translation :
    (∀ (I : Finset Int) (p : Int),
        physicalToLogicalIndex I p =
          if p ∈ I then none
          else some (p - (I.filter (fun cell => cell < p)).card)) ∧
    physicalToLogicalIndex {2, 5} 0 = some 0 ∧
    physicalToLogicalIndex {2, 5} 2 = none ∧
    physicalToLogicalIndex {2, 5} 3 = some 2 ∧
    physicalToLogicalIndex {2, 5} 5 = none ∧
    physicalToLogicalIndex {2, 5} 6 = some 4 := by
  refine ⟨fun I p => rfl, ?_, ?_, ?_, ?_, ?_⟩ <;> decide

/-- C3: with `I ⊆ [0, P)` and `len(L) = P − |I|`, every non-ignored physical
position `p < P` has rank `k = nonIgnoredCount I 0 p` among the non-ignored
positions, `k` is a valid index of `L`, the forward remap places `L[k]` at
physical position `p`, and the reverse translator sends `p` back to `k`. -/
theorem claim_C3_round_trip (P : Nat) (I : Finset Int)
    (hI : ∀ x ∈ I, 0 ≤ x ∧ x < (P : Int))
    (L : List Int) (hL : L.length = P - I.card)
    (p : Nat) (hp : p < P) (hpI : ((p : Nat) : Int) ∉ I) :
    nonIgnoredCount I 0 p < L.length ∧
    (remapCellsToPhysical L P I).getD p 0 = L.getD (nonIgnoredCount I 0 p) 0 ∧
    physicalToLogicalIndex I (p : Int) = some ((nonIgnoredCount I 0 p : Nat) : Int) := by
  have hI0 : ∀ x ∈ I, 0 ≤ x := fun x hx => (hI x hx).1
  have hcount_p := nonIgnoredCount_add_filter_card I hI0 p
  have hcount_P := nonIgnoredCount_add_filter_card I hI0 P
  have hfull : I.filter (fun c => c < (P : Int)) = I := by
    apply Finset.filter_true_of_mem
    intro x hx
    exact (hI x hx).2
  have hsplit : nonIgnoredCount I 0 P =
      nonIgnoredCount I 0 p + nonIgnoredCount I p (P - p) := by
    have h := nonIgnoredCount_add I p (P - p) 0
    rw [show p + (P - p) = P by omega] at h
    simpa using h
  have hrest : 1 ≤ nonIgnoredCount I p (P - p) := by
    rw [show P - p = (P - p - 1) + 1 by omega]
    simp [nonIgnoredCount, hpI]
  refine ⟨?_, ?_, ?_⟩
  · rw [hfull] at hcount_P
    omega
  · have h := remapAux_getD L I P 0 0 p hp
    rw [if_neg (by simpa using hpI)] at h
    simpa using h
  · rw [physicalToLogicalIndex, if_neg hpI]
    congr 1
    omega

theorem claim_C3_round_trip_witness :
    nonIgnoredCount {1} 0 2 < [10, 20, 30].length ∧
    (remapCellsToPhysical [10, 20, 30] 4 ({1} : Finset Int)).getD 2 0 =
      [10, 20, 30].getD (nonIgnoredCount {1} 0 2) 0 ∧
    physicalToLogicalIndex {1} ((2 : Nat) : Int) =
      some ((nonIgnoredCount {1} 0 2 : Nat) : Int) :=
  claim_C3_round_trip 4 {1} (by decide) [10, 20, 30] (by decide) 2 (by decide)
    (by decide)

/-- Embeds `braille.DisplayDimensions` as used by the add-on. -/
structure DisplayDimensions where
  numRows : Nat
  numCols : Nat
deriving DecidableEq

/-- Embeds the dimension-adjusting part of
`CellMappingManager._filterDisplayDimensions`, with the freshly recomputed
ignored set passed explicitly: when the ignored set is empty or
`numRows > 1` the input dimensions are returned unchanged; otherwise the
result is `DisplayDimensions(numRows=1, numCols=max(0, numCols -
validIgnoredCount))`, where `validIgnoredCount` counts ignored cells with
`0 <= cell < numCols`.  Truncated `Nat` subtraction is exactly the source's
`max(0, ...)`. -/
def filterDisplayDimensions (ignoredCells : Finset Int) (d : DisplayDimensions) :
    DisplayDimensions :=
  if ignoredCells = ∅ ∨ 1 < d.numRows then d
  else
    ⟨1, d.numCols -
      (ignoredCells.filter (fun cell => 0 ≤ cell ∧ cell < (d.numCols : Int))).card⟩

/-- C4: on a single-row device the dimension filter returns one row and
`max(0, cols − |ignored positions within [0, cols)|)` columns; in particular
8 columns with ignored `{2,5}` give 6, ignored `{2,5,9}` also give 6 (9 is out
of range), and 4 columns with ignored `{0,1,2,3}` give 0. -/
theorem claim_C4_single_row_dimensions :
    (∀ (cols : Nat) (I : Finset Int),
        filterDisplayDimensions I ⟨1, cols⟩ =
          ⟨1, cols - (I.filter (fun cell => 0 ≤ cell ∧ cell < (cols : Int))).card⟩) ∧
    filterDisplayDimensions {2, 5} ⟨1, 8⟩ = ⟨1, 6⟩ ∧
    filterDisplayDimensions {2, 5, 9} ⟨1, 8⟩ = ⟨1, 6⟩ ∧
    filterDisplayDimensions {0, 1, 2, 3} ⟨1, 4⟩ = ⟨1, 0⟩ := by
  refine ⟨?_, by decide, by decide, by decide⟩
  intro cols I
  by_cases h : I = ∅
  · subst h
    simp [filterDisplayDimensions]
  · rw [filterDisplayDimensions, if_neg]
    simp only [not_or, h, not_false_iff, true_and]
    omega

/-- C5 fails as stated: a zero-row dimension record with a nonempty ignored
set is not passed through unchanged; the filter rebuilds it with
`numRows = 1` and reduced columns. -/
theorem claim_C5_multi_row_bypass_counterexample :
    filterDisplayDimensions {2} ⟨0, 8⟩ ≠ ⟨0, 8⟩ ∧
    filterDisplayDimensions {2} ⟨0, 8⟩ = ⟨1, 7⟩ := by
  constructor <;> decide

/-- C5 amended: the dimension filter returns its input unchanged whenever the
device reports more than one row, and also whenever the ignored set is empty
(whatever the row count); the pass-through does not extend to `numRows = 0`
with a nonempty ignored set. -/
theorem claim_C5_multi_row_bypass (d : DisplayDimensions) (I : Finset Int)
    (h : 1 < d.numRows ∨ I = ∅) :
    filterDisplayDimensions I d = d := by
  rw [filterDisplayDimensions, if_pos h.symm]

theorem claim_C5_multi_row_bypass_witness :
    filterDisplayDimensions {2} ⟨3, 8⟩ = ⟨3, 8⟩ :=
  claim_C5_multi_row_bypass ⟨3, 8⟩ {2} (Or.inl (by decide))

theorem remapAux_union_out_of_range (L : List Int) (I J : Finset Int) :
    ∀ (n p li : Nat), (∀ m : Nat, m < n → ((p + m : Nat) : Int) ∉ J) →
      remapAux L (I ∪ J) n p li = remapAux L I n p li := by
  intro n
  induction n with
  | zero => intro p li _; rfl
  | succ n ih =>
      intro p li h
      have hpJ : ((p : Nat) : Int) ∉ J := by
        have h0 := h 0 (by omega)
        simpa using h0
      have htail : ∀ m : Nat, m < n → ((p + 1 + m : Nat) : Int) ∉ J := by
        intro m hm
        have hm1 := h (m + 1) (by omega)
        rw [show p + 1 + m = p + (m + 1) by omega]
        exact hm1
      by_cases hpI : ((p : Nat) : Int) ∈ I
      · simp only [remapAux, if_pos hpI, if_pos (Finset.mem_union_left J hpI),
          ih (p + 1) li htail]
      · have hnot : ((p : Nat) : Int) ∉ I ∪ J := by
          rw [Finset.mem_union]
          exact fun hc => hc.elim hpI hpJ
        simp only [remapAux, if_neg hpI, if_neg hnot, ih (p + 1) (li + 1) htail]

/-- C6: ignored positions at or beyond the physical range are behaviorally
invisible: adding any set `J` of positions outside `[0, P)` to the ignored set
changes neither the forward remap of any buffer nor the reverse translation of
any physical index inside `[0, P)`. -/
theorem claim_C6_out_of_range_ignored (P : Nat) (I J : Finset Int)
    (hJ : ∀ x ∈ J, (P : Int) ≤ x) :
    (∀ L : List Int, remapCellsToPhysical L P (I ∪ J) = remapCellsToPhysical L P I) ∧
    (∀ p : Nat, p < P →
        physicalToLogicalIndex (I ∪ J) (p : Int) = physicalToLogicalIndex I (p : Int)) := by
  constructor
  · intro L
    apply remapAux_union_out_of_range
    intro m hm hmem
    have hle := hJ _ hmem
    simp only [Nat.zero_add] at hle
    omega
  · intro p hp
    have hpJ : ((p : Nat) : Int) ∉ J := by
      intro hmem
      have hle := hJ _ hmem
      omega
    have hfil : (I ∪ J).filter (fun cell => cell < ((p : Nat) : Int)) =
        I.filter (fun cell => cell < ((p : Nat) : Int)) := by
      rw [Finset.filter_union]
      have hJfil : J.filter (fun cell => cell < ((p : Nat) : Int)) = ∅ := by
        apply Finset.filter_eq_empty_iff.mpr
        intro x hx
        have hle := hJ x hx
        omega
      rw [hJfil, Finset.union_empty]
    by_cases hpI : ((p : Nat) : Int) ∈ I
    · rw [physicalToLogicalIndex, physicalToLogicalIndex,
        if_pos (Finset.mem_union_left J hpI), if_pos hpI]
    · have hnot : ((p : Nat) : Int) ∉ I ∪ J := by
        rw [Finset.mem_union]
        exact fun hc => hc.elim hpI hpJ
      rw [physicalToLogicalIndex, physicalToLogicalIndex, if_neg hnot, if_neg hpI,
        hfil]

theorem claim_C6_out_of_range_ignored_witness :
    remapCellsToPhysical [7, 8] 4 (({1} : Finset Int) ∪ {9}) =
      remapCellsToPhysical [7, 8] 4 {1} ∧
    physicalToLogicalIndex (({1} : Finset Int) ∪ {9}) ((2 : Nat) : Int) =
      physicalToLogicalIndex {1} ((2 : Nat) : Int) :=
  ⟨(claim_C6_out_of_range_ignored 4 {1} {9} (by decide)).1 [7, 8],
   (claim_C6_out_of_range_ignored 4 {1} {9} (by decide)).2 2 (by decide)⟩

/-- Embeds the patched `routingIndex` getter installed by `_patchRoutingIndex`:
`getattr(gesture, "_routingIndex", None)` is the `Option Int` argument; when it
is absent the getter returns `None`, otherwise it translates through
`_physicalToLogicalIndex`. -/
def getRoutingIndex (ignoredCells : Finset Int) (rawRoutingIndex : Option Int) :
    Option Int :=
  match rawRoutingIndex with
  | none => none
  | some rawIndex => physicalToLogicalIndex ignoredCells rawIndex

/-- Observable effect of the patched `routeTo`: either nothing happens, or the
original `routeTo` is invoked with a concrete (non-optional) index. -/
inductive RouteAction where
  | noOp : RouteAction
  | routed : Int → RouteAction
deriving DecidableEq

/-- Embeds `patchedRouteTo` from `_patchRouteTo`: a `None` window position is
consumed (`return` without calling the original), otherwise the original
`routeTo` is called with the given position. -/
def patchedRouteTo (windowPos : Option Int) : RouteAction :=
  match windowPos with
  | none => RouteAction.noOp
  | some pos => RouteAction.routed pos

/-- C7: an absent stored routing index makes the patched getter return `None`
with no translation, and a `None` position makes the patched `routeTo` a no-op
that never invokes the original; the original is only ever invoked with a
concrete index. -/
theorem claim_C7_none_is_noop :
    (∀ ignoredCells : Finset Int, getRoutingIndex ignoredCells none = none) ∧
    patchedRouteTo none = RouteAction.noOp ∧
    (∀ pos : Int, patchedRouteTo (some pos) = RouteAction.routed pos) :=
  ⟨fun _ => rfl, rfl, fun _ => rfl⟩

/-- Host-visible entry points the manager patches, plus the registration flag
of the `filter_displayDimensions` extension point; the entry-point slots hold
opaque values of an arbitrary type `α` standing for the function objects. -/
structure HostState (α : Type) where
  writeCells : α
  routingIndex : α
  routeTo : α
  filterRegistered : Bool
deriving DecidableEq

/-- Embeds the mutable attributes of `CellMappingManager`. -/
structure ManagerState (α : Type) where
  ignoredCells : Finset Int
  originalWriteCells : Option α
  originalRoutingIndexProperty : Option α
  originalRouteTo : Option α
  isRegistered : Bool

/-- Embeds `CellMappingManager.__init__`. -/
def initialManager (α : Type) : ManagerState α :=
  ⟨∅, none, none, none, false⟩

/-- Embeds `registerHandlers`: a no-op when already registered; otherwise it
registers the dimension filter, saves the three current entry points and
replaces them by the patched closures (passed here as the three `patched*`
values), then flips `_isRegistered`. The trailing `_refreshDisplay()` call
touches only the host display cache, not these fields. -/
def registerHandlers {α : Type}
    (patchedWriteCellsVal patchedRoutingIndexVal patchedRouteToVal : α)
    (s : ManagerState α × HostState α) : ManagerState α × HostState α :=
  if s.1.isRegistered then s
  else
    (⟨s.1.ignoredCells, some s.2.writeCells, some s.2.routingIndex, some s.2.routeTo,
      true⟩,
     ⟨patchedWriteCellsVal, patchedRoutingIndexVal, patchedRouteToVal, true⟩)

/-- Embeds `unregisterHandlers`: a no-op when not registered; otherwise it
unregisters the dimension filter and restores each entry point from its saved
original (each `_unpatch*` leaves the entry point alone when the saved original
is `None`, which is `Option.getD`), clearing the saved slots and the flag. -/
def unregisterHandlers {α : Type} (s : ManagerState α × HostState α) :
    ManagerState α × HostState α :=
  if s.1.isRegistered then
    (⟨s.1.ignoredCells, none, none, none, false⟩,
     ⟨s.1.originalWriteCells.getD s.2.writeCells,
      s.1.originalRoutingIndexProperty.getD s.2.routingIndex,
      s.1.originalRouteTo.getD s.2.routeTo,
      false⟩)
  else s

/-- C8: registering while registered and unregistering while unregistered are
identities, and a register-then-unregister run from an unregistered manager
restores all three patched entry points to their original values, removes the
dimension filter, clears the saved originals and ends unregistered. -/
theorem claim_C8_register_state_machine {α : Type}
    (pw pri prt : α) (m : ManagerState α) (h : HostState α) :
    (m.isRegistered = true → registerHandlers pw pri prt (m, h) = (m, h)) ∧
    (m.isRegistered = false → unregisterHandlers (m, h) = (m, h)) ∧
    (m.isRegistered = false →
      unregisterHandlers (registerHandlers pw pri prt (m, h)) =
        (⟨m.ignoredCells, none, none, none, false⟩,
         ⟨h.writeCells, h.routingIndex, h.routeTo, false⟩)) := by
  refine ⟨?_, ?_, ?_⟩ <;> intro hreg <;>
    simp [registerHandlers, unregisterHandlers, hreg]

theorem claim_C8_register_state_machine_witness :
    unregisterHandlers
        (registerHandlers (10 : Int) 11 12
          (initialManager Int, ⟨1, 2, 3, false⟩)) =
      ((⟨∅, none, none, none, false⟩ : ManagerState Int),
       (⟨1, 2, 3, false⟩ : HostState Int)) :=
  (claim_C8_register_state_machine (10 : Int) 11 12 (initialManager Int)
    ⟨1, 2, 3, false⟩).2.2 rfl

/-- Events touching the `_ignoredCells` snapshot: a manual
`refreshIgnoredCells` notification, a host dimension query (which runs
`_filterDisplayDimensions` with the ignored list read from configuration), and
a forward remap of a logical buffer. -/
inductive CoreEvent where
  | manualRefresh : CoreEvent
  | dimensionQuery : DisplayDimensions → List Int → CoreEvent
  | forwardRemap : List Int → Nat → CoreEvent

/-- Transition of the `_ignoredCells` snapshot: `refreshIgnoredCells` only
calls `_refreshDisplay` and assigns nothing; `_filterDisplayDimensions`
performs the sole assignment `self._ignoredCells = set(ignoredList)`; the
forward remap only reads the snapshot. -/
def stepIgnoredCells (s : Finset Int) : CoreEvent → Finset Int
  | CoreEvent.manualRefresh => s
  | CoreEvent.dimensionQuery _ cfg => cfg.toFinset
  | CoreEvent.forwardRemap _ _ => s

/-- Snapshot after a sequence of events. -/
def runIgnoredCells (s : Finset Int) (es : List CoreEvent) : Finset Int :=
  es.foldl stepIgnoredCells s

/-- Output of a forward remap performed after the given event sequence; the
remap reads the snapshot current at that moment. -/
def remapOutputAfter (s : Finset Int) (es : List CoreEvent) (L : List Int)
    (P : Nat) : List Int :=
  remapCellsToPhysical L P (runIgnoredCells s es)

theorem runIgnoredCells_no_query (es : List CoreEvent)
    (hes : ∀ e ∈ es, ∀ (d : DisplayDimensions) (cfg : List Int),
      e ≠ CoreEvent.dimensionQuery d cfg) :
    ∀ s : Finset Int, runIgnoredCells s es = s := by
  induction es with
  | nil => intro s; rfl
  | cons e es ih =>
      intro s
      have hstep : stepIgnoredCells s e = s := by
        cases e with
        | manualRefresh => rfl
        | dimensionQuery d cfg =>
            exact absurd rfl (hes _ (List.mem_cons_self _ _) d cfg)
        | forwardRemap L P => rfl
      have htail : ∀ e' ∈ es, ∀ (d : DisplayDimensions) (cfg : List Int),
          e' ≠ CoreEvent.dimensionQuery d cfg :=
        fun e' he' => hes e' (List.mem_cons_of_mem _ he')
      rw [runIgnoredCells, List.foldl_cons, hstep]
      exact ih htail s

/-- C9: the manual refresh notification leaves the `_ignoredCells` snapshot
untouched (so does a forward remap; the only assignment happens on a dimension
query), and after a manual refresh followed by a dimension query that reads a
changed configuration, every subsequent forward remap (across further
non-query events) uses the newly computed set, independent of the set `s` in
effect before the notification. -/
theorem claim_C9_refresh_consistency (s : Finset Int) (d : DisplayDimensions)
    (cfg : List Int) (es : List CoreEvent)
    (hes : ∀ e ∈ es, ∀ (d' : DisplayDimensions) (cfg' : List Int),
      e ≠ CoreEvent.dimensionQuery d' cfg')
    (L : List Int) (P : Nat) :
    stepIgnoredCells s CoreEvent.manualRefresh = s ∧
    stepIgnoredCells s (CoreEvent.forwardRemap L P) = s ∧
    runIgnoredCells s
        (CoreEvent.manualRefresh :: CoreEvent.dimensionQuery d cfg :: es) =
      cfg.toFinset ∧
    remapOutputAfter s
        (CoreEvent.manualRefresh :: CoreEvent.dimensionQuery d cfg :: es) L P =
      remapCellsToPhysical L P cfg.toFinset := by
  have hrun : runIgnoredCells s
      (CoreEvent.manualRefresh :: CoreEvent.dimensionQuery d cfg :: es) =
      cfg.toFinset := by
    rw [runIgnoredCells, List.foldl_cons, List.foldl_cons]
    exact runIgnoredCells_no_query es hes _
  exact ⟨rfl, rfl, hrun, by rw [remapOutputAfter, hrun]⟩

theorem claim_C9_refresh_consistency_witness :
    stepIgnoredCells {0} CoreEvent.manualRefresh = {0} ∧
    stepIgnoredCells {0} (CoreEvent.forwardRemap [5] 2) = {0} ∧
    runIgnoredCells {0}
        (CoreEvent.manualRefresh :: CoreEvent.dimensionQuery ⟨1, 4⟩ [2] ::
          [CoreEvent.manualRefresh]) =
      List.toFinset [2] ∧
    remapOutputAfter {0}
        (CoreEvent.manualRefresh :: CoreEvent.dimensionQuery ⟨1, 4⟩ [2] ::
          [CoreEvent.manualRefresh]) [5] 2 =
      remapCellsToPhysical [5] 2 (List.toFinset [2]) :=
  claim_C9_refresh_consistency {0} ⟨1, 4⟩ [2] [CoreEvent.manualRefresh]
    (by
      intro e he d' cfg'
      rw [List.mem_singleton] at he
      subst he
      exact fun hc => CoreEvent.noConfusion hc)
    [5] 2

/-- Embeds `IgnoredCellsProfile` from config.py. -/
structure IgnoredCellsProfile where
  driverName : String
  numCells : Int
  ignoredCells : List Int
deriving DecidableEq

/-- Embeds `IgnoredCellsProfile.getIgnoredCellsZeroBased`: the comprehension
`[cell - 1 for cell in self.ignoredCells if cell > 0]` as a single filtering
and mapping pass. -/
def IgnoredCellsProfile.getIgnoredCellsZeroBased (p : IgnoredCellsProfile) :
    List Int :=
  p.ignoredCells.filterMap (fun cell => if 0 < cell then some (cell - 1) else none)

theorem filterMap_shift_eq_filter_map (l : List Int) :
    l.filterMap (fun cell => if 0 < cell then some (cell - 1) else none) =
      (l.filter (fun cell => 0 < cell)).map (fun cell => cell - 1) := by
  induction l with
  | nil => rfl
  | cons c cs ih =>
      by_cases hc : 0 < c <;>
        simp [List.filterMap_cons, List.filter_cons, hc, ih]

/-- C10: the boundary conversion keeps, in order, exactly the configured
1-based cells greater than zero, each shifted down by one; consequently every
index handed to the core is nonnegative and configured values below 1 are
dropped rather than turned into negative indices. -/
theorem claim_C10_zero_based_boundary (p : IgnoredCellsProfile) :
    p.getIgnoredCellsZeroBased =
      (p.ignoredCells.filter (fun cell => 0 < cell)).map (fun cell => cell - 1) ∧
    ∀ x ∈ p.getIgnoredCellsZeroBased, 0 ≤ x := by
  refine ⟨filterMap_shift_eq_filter_map p.ignoredCells, ?_⟩
  intro x hx
  rw [IgnoredCellsProfile.getIgnoredCellsZeroBased,
    filterMap_shift_eq_filter_map] at hx
  rw [List.mem_map] at hx
  obtain ⟨c, hc, rfl⟩ := hx
  rw [List.mem_filter] at hc
  have : 0 < c := by simpa using hc.2
  omega

theorem claim_C10_zero_based_boundary_witness :
    (IgnoredCellsProfile.getIgnoredCellsZeroBased ⟨"alva", 8, [3, 0, 5, -2]⟩ =
      ([3, 0, 5, -2].filter (fun cell => 0 < cell)).map (fun cell => cell - 1)) ∧
    (0 : Int) ≤ 2 :=
  ⟨(claim_C10_zero_based_boundary ⟨"alva", 8, [3, 0, 5, -2]⟩).1,
   (claim_C10_zero_based_boundary ⟨"alva", 8, [3, 0, 5, -2]⟩).2 2 (by decide)⟩

end BrailleCellIgnorer
